import Mathlib

/-!
# Verification of the knowledge-map construction pipeline

Shallow embedding of the concept-graph construction and repair pipeline of
the `ai-roadmap-backend` repository, together with proofs about its
normalization passes.

Source files embedded here:
* `app/llm_pipelines/utils.py` and `app/llm_pipelines/build_map/pipeline.py`
  (header-path indexing, hierarchy/relation cleaning for the build pipeline);
* `app/llm_pipelines/edit_map/pipeline.py` (cleaning for the edit pipeline);
* `app/main.py` (error surfacing of the rewrite route).

Python strings are modelled as Lean `String`s, with character-level helpers
(`chSplit`, `chJoin`, ...) mirroring Python's `str.split`, `str.join`,
`str.partition`, `str.replace`, `str.strip` and `str.removeprefix` on the
character lists.  Python `dict`s are modelled as association lists with
Python's insertion semantics (first-occurrence position, last assignment
wins).  A Python function that can raise is modelled with an `Option`
result, `none` standing for the raised exception.
-/

namespace Roadmap

/-! ## Character-level string helpers -/

/-- Python `s.split(sep)` for a single-character separator, on character
lists: `""` splits to `[""]`, separators at the ends produce empty groups. -/
def chSplit (sep : Char) : List Char → List (List Char)
  | [] => [[]]
  | c :: rest =>
    let r := chSplit sep rest
    if c = sep then [] :: r
    else
      match r with
      | g :: gs => (c :: g) :: gs
      | [] => [[c]]

/-- Python `sep.join(groups)` for a single-character separator. -/
def chJoin (sep : Char) : List (List Char) → List Char
  | [] => []
  | [g] => g
  | g :: gs => g ++ sep :: chJoin sep gs

/-- The whitespace characters matched by Python's `\s` and stripped by
`str.strip` (ASCII range). -/
def isPyWs (c : Char) : Bool :=
  c == ' ' || c == '\t' || c == '\n' || c == '\r' || c == '\u000B' || c == '\u000C'

/-- Python `s.strip()` on a character list (ASCII whitespace). -/
def chStrip (cs : List Char) : List Char :=
  ((cs.dropWhile isPyWs).reverse.dropWhile isPyWs).reverse

/-- Python `s.partition('#')`: the part before the first `'#'` and the part
after it (empty when there is no `'#'`). -/
def partitionHash (s : String) : String × String :=
  (String.mk (s.toList.takeWhile (· ≠ '#')),
   String.mk ((s.toList.dropWhile (· ≠ '#')).drop 1))

/-- Python `name.removeprefix('_')`: drop one leading underscore if present. -/
def stripLeadUnderscore (s : String) : String :=
  match s.toList with
  | '_' :: rest => String.mk rest
  | _ => s

/-- Python `'/'.join(...)` on strings. -/
def joinSlash : List String → String
  | [] => ""
  | [x] => x
  | x :: xs => x ++ "/" ++ joinSlash xs

/-- Sequence a list of `Option`s: `some` of the list of values iff every
element is `some`.  Models a `pydantic` revalidation of a `list[str]` that
fails when the list contains a `None`. -/
def seqOption {α : Type} : List (Option α) → Option (List α)
  | [] => some []
  | none :: _ => none
  | some a :: rest =>
    match seqOption rest with
    | none => none
    | some r => some (a :: r)

/-! ## Python dict model

A Python `dict` is an association list in which assignment to an existing
key updates the value in place (keeping the key's position) and assignment
to a fresh key appends at the end. -/

/-- `d[k] = v` on a Python dict. -/
def dictInsert {β : Type} (k : String) (v : β) : List (String × β) → List (String × β)
  | [] => [(k, v)]
  | (k', v') :: rest =>
    if k' = k then (k', v) :: rest else (k', v') :: dictInsert k v rest

/-- `d.get(k, dflt)` on a Python dict. -/
def dictGet {β : Type} (k : String) (d : List (String × β)) (dflt : β) : β :=
  match d with
  | [] => dflt
  | (k', v) :: rest => if k' = k then v else dictGet k rest dflt

/-- Build a Python dict by inserting the pairs in order into an empty dict. -/
def dictOfList {β : Type} (l : List (String × β)) : List (String × β) :=
  l.foldl (fun acc p => dictInsert p.1 p.2 acc) []

/-! ## Header-path indexer

`format_header` and `get_markdown_header_paths` from
`app/llm_pipelines/utils.py` (duplicated verbatim in
`app/llm_pipelines/build_map/pipeline.py`), and `get_allowed_sources`. -/

/-- `format_header`: `header.replace(' ', '').replace('(', '').replace(')', '')`,
i.e. remove every space and parenthesis. -/
def format_header (h : String) : String :=
  String.mk (h.toList.filter (fun c => !(c == ' ' || c == '(' || c == ')')))

/-- One step of the header regex `^(#{1,6})\s+(.*)` applied to a single line:
the heading level (number of leading `'#'`, 1–6, followed by at least one
whitespace character) and the heading text
(`match.group(2).strip().replace(' ', '-')`). -/
def parseHeaderLine (line : List Char) : Option (Nat × String) :=
  let n := (line.takeWhile (· == '#')).length
  if 1 ≤ n ∧ n ≤ 6 then
    match line.drop n with
    | [] => none
    | c :: rest =>
      if isPyWs c then
        some (n, String.mk ((chStrip ((c :: rest).dropWhile isPyWs)).map
          (fun ch => if ch == ' ' then '-' else ch)))
      else none
  else none

/-- The `headers` list collected by `get_markdown_header_paths`: every line of
the text that matches the header pattern, as a `(level, text)` pair. -/
def headersOf (text : String) : List (Nat × String) :=
  (chSplit '\n' text.toList).filterMap parseHeaderLine

/-- The main loop of `get_markdown_header_paths`: maintain the `current_path`
stack (truncate to `level - 1` entries, push the text), and emit the
`'/'`-joined `format_header`ed path whenever the heading is a leaf (last
heading, or next heading's level is `≤` its own). -/
def buildPaths : List (Nat × String) → List String → List String
  | [], _ => []
  | (level, text) :: rest, path =>
    let path2 := path.take (level - 1) ++ [text]
    match rest with
    | [] => [joinSlash (path2.map format_header)]
    | (nl, t2) :: rest2 =>
      if nl ≤ level then
        joinSlash (path2.map format_header) :: buildPaths ((nl, t2) :: rest2) path2
      else buildPaths ((nl, t2) :: rest2) path2

/-- `get_markdown_header_paths`: slash-separated paths of the leaf headers. -/
def get_markdown_header_paths (text : String) : List String :=
  buildPaths (headersOf text) []

/-- `get_allowed_sources`: all document ids, then `f'{name}#{header_path}'`
for every leaf header path of every document. -/
def get_allowed_sources (material : List (String × String)) : List String :=
  material.map Prod.fst ++
    material.flatMap (fun p =>
      (get_markdown_header_paths p.2).map (fun path => p.1 ++ "#" ++ path))

/-! ## Build pipeline (`app/llm_pipelines/build_map/pipeline.py`)

`ConceptHierarchyNode` is the recursive pydantic model: optional citation
list `sources` and optional child dict `consists_of`.  The Python code only
ever tests these fields for truthiness, under which `None`, `[]` and `{}`
coincide; the model keeps the `Option` so the distinction is preserved. -/

inductive ConceptHierarchyNode : Type where
  | mk (sources : Option (List String)) (consists_of : Option (List (String × ConceptHierarchyNode)))

abbrev ConceptHierarchy := List (String × ConceptHierarchyNode)

def ConceptHierarchyNode.sources : ConceptHierarchyNode → Option (List String)
  | .mk s _ => s

def ConceptHierarchyNode.consists_of :
    ConceptHierarchyNode → Option (List (String × ConceptHierarchyNode))
  | .mk _ c => c

/-- `_fix_source_name` from `preprocess_hierarchy`: split at the first `'#'`,
`format_header` every `'/'`-separated heading segment, rejoin as
`f'{file}#{headers}'` (note: a source without `'#'` gains a trailing `'#'`). -/
def fix_source_name (src : String) : String :=
  let p := partitionHash src
  p.1 ++ "#" ++ joinSlash ((chSplit '/' p.2.toList).map (fun g => format_header (String.mk g)))

/-- `_fix_hallucinated_header` from `preprocess_hierarchy`: keep a source in
the allowed set, truncate to the file name when only the file is allowed,
and otherwise fall through (Python implicitly returns `None`). -/
def fix_hallucinated_header (allowed : List String) (src : String) : Option String :=
  if src ∈ allowed then some src
  else if (partitionHash src).1 ∈ allowed then some (partitionHash src).1
  else none

/-- The `new_sources` computation of `_prepocess`: when `concept.sources` is
truthy, repair every citation; re-validating the resulting `list[str] | None`
field raises (outer `none`) when any repaired citation is Python `None`. -/
def procSourcesB (allowed : List String) : Option (List String) → Option (Option (List String))
  | some (s :: ss) =>
    match seqOption ((s :: ss).map (fun x => fix_hallucinated_header allowed (fix_source_name x))) with
    | none => none
    | some l => some (some l)
  | _ => some none

mutual

/-- Body of `_prepocess` for one node: repaired sources plus the recursively
rebuilt child dict (`None` when `consists_of` is falsy). -/
def prepNode (allowed : List String) : ConceptHierarchyNode → Option ConceptHierarchyNode
  | .mk sources children =>
    match procSourcesB allowed sources with
    | none => none
    | some newSources =>
      match children with
      | some (c :: cs) =>
        match prepPairs allowed (c :: cs) with
        | none => none
        | some l => some (.mk newSources (some (dictOfList l)))
      | _ => some (.mk newSources none)

/-- The loop of `_prepocess` over `hierarchy.items()`: each concept name is
stripped of one leading underscore and its node repaired; the pairs are then
folded into a dict by `dictOfList` at the call sites. -/
def prepPairs (allowed : List String) :
    List (String × ConceptHierarchyNode) → Option (List (String × ConceptHierarchyNode))
  | [] => some []
  | (name, node) :: rest =>
    match prepNode allowed node with
    | none => none
    | some n =>
      match prepPairs allowed rest with
      | none => none
      | some r => some ((stripLeadUnderscore name, n) :: r)

end

/-- `preprocess_hierarchy`: normalize sources and concept-name format, clear
hallucinated or mistaken sources.  `none` models the `pydantic`
`ValidationError` raised while rebuilding a node whose repaired citation
list contains Python `None`. -/
def preprocess_hierarchy (hierarchy : ConceptHierarchy) (allowed : List String) :
    Option ConceptHierarchy :=
  (prepPairs allowed hierarchy).map dictOfList

mutual

/-- Names contributed by one node's truthy children in `flatten_hierarchy`. -/
def flattenNode : ConceptHierarchyNode → List String
  | .mk _ (some (c :: cs)) => flatten_hierarchy (c :: cs)
  | _ => []

/-- `flatten_hierarchy`: all concept names of a hierarchy (the Python set is
modelled as a list, used only through membership). -/
def flatten_hierarchy : ConceptHierarchy → List String
  | [] => []
  | (name, node) :: rest => name :: (flattenNode node ++ flatten_hierarchy rest)

end

mutual

/-- Recursion of `get_parents_map._traverse` into one node's truthy children. -/
def parentsNode : ConceptHierarchyNode → List String →
    List (String × List String) → List (String × List String)
  | .mk _ (some (c :: cs)), path, acc => parentsAux (c :: cs) path acc
  | _, _, acc => acc

/-- The `_traverse` of `get_parents_map`: assign `parents_map[name] =
current_path`, then recurse into truthy children with the extended path. -/
def parentsAux : ConceptHierarchy → List String →
    List (String × List String) → List (String × List String)
  | [], _, acc => acc
  | (name, node) :: rest, path, acc =>
    parentsAux rest path (parentsNode node (path ++ [name]) (dictInsert name path acc))

end

/-- `get_parents_map`: concept name to the list of its ancestors, root first. -/
def get_parents_map (hierarchy : ConceptHierarchy) : List (String × List String) :=
  parentsAux hierarchy [] []

mutual

/-- Recursion of `get_children_map._traverse` into one node: `some` of the
descendant list when `consists_of` is truthy, together with the updated
accumulator. -/
def childTravNode : ConceptHierarchyNode → List (String × List String) →
    (Option (List String) × List (String × List String))
  | .mk _ (some (c :: cs)), acc =>
    let r := childTrav (c :: cs) acc
    (some r.1, r.2)
  | _, acc => (none, acc)

/-- The `_traverse` of `get_children_map`: returns all concepts of the
subtree and threads the accumulated `children_map`. -/
def childTrav : ConceptHierarchy → List (String × List String) →
    (List String × List (String × List String))
  | [], acc => ([], acc)
  | (name, node) :: rest, acc =>
    match childTravNode node acc with
    | (some desc, acc1) =>
      let sacc := childTrav rest (dictInsert name desc acc1)
      (name :: (desc ++ sacc.1), sacc.2)
    | (none, acc1) =>
      let sacc := childTrav rest (dictInsert name [] acc1)
      (name :: sacc.1, sacc.2)

end

/-- `get_children_map`: concept name to the flat list of its descendants. -/
def get_children_map (hierarchy : ConceptHierarchy) : List (String × List String) :=
  (childTrav hierarchy []).2

/-- `preprocess_related`: filter every entry's list to known, non-ancestor,
non-descendant concepts; an emptied list becomes Python `None` (`or None`),
the key is kept. -/
def preprocess_related (related : List (String × List String)) (hierarchy : ConceptHierarchy) :
    List (String × Option (List String)) :=
  let concepts := flatten_hierarchy hierarchy
  let ancestors := get_parents_map hierarchy
  let descendats := get_children_map hierarchy
  related.map (fun kv =>
    let filtered := kv.2.filter (fun concept =>
      decide (concept ∈ concepts ∧ concept ∉ dictGet kv.1 ancestors [] ∧
        concept ∉ dictGet kv.1 descendats []))
    (kv.1, if filtered = [] then none else some filtered))

/-! ## Edit pipeline (`app/llm_pipelines/edit_map/pipeline.py`)

`Concept` and `KnowledgeMap` are the pydantic models from
`app/llm_pipelines/models.py`. -/

inductive Concept : Type where
  | mk (title : String) (description : Option String) (related : Option (List String))
      (source : Option (List String)) (consist_of : Option (List Concept))

def Concept.title : Concept → String
  | .mk t _ _ _ _ => t

def Concept.description : Concept → Option String
  | .mk _ d _ _ _ => d

def Concept.related : Concept → Option (List String)
  | .mk _ _ r _ _ => r

def Concept.source : Concept → Option (List String)
  | .mk _ _ _ s _ => s

def Concept.consist_of : Concept → Option (List Concept)
  | .mk _ _ _ _ c => c

structure KnowledgeMap : Type where
  concepts : List Concept

mutual

/-- Titles contributed by one concept's truthy children in `flatten_map`. -/
def flattenConceptNode : Concept → List String
  | .mk _ _ _ _ (some (c :: cs)) => flatten_map (c :: cs)
  | _ => []

/-- `flatten_map`: all concept titles of a concept list (the Python set is
modelled as a list, used only through membership). -/
def flatten_map : List Concept → List String
  | [] => []
  | c :: rest => c.title :: (flattenConceptNode c ++ flatten_map rest)

end

mutual

/-- Recursion of `get_parents_map_from_list._traverse` into one concept's
truthy children. -/
def parentsNodeL : Concept → List String →
    List (String × List String) → List (String × List String)
  | .mk _ _ _ _ (some (c :: cs)), path, acc => parentsAuxL (c :: cs) path acc
  | _, _, acc => acc

/-- The `_traverse` of `get_parents_map_from_list`. -/
def parentsAuxL : List Concept → List String →
    List (String × List String) → List (String × List String)
  | [], _, acc => acc
  | c :: rest, path, acc =>
    parentsAuxL rest path (parentsNodeL c (path ++ [c.title]) (dictInsert c.title path acc))

end

/-- `get_parents_map_from_list`: concept title to its ancestor path. -/
def get_parents_map_from_list (concepts : List Concept) : List (String × List String) :=
  parentsAuxL concepts [] []

mutual

/-- Recursion of `get_children_map_from_list._traverse` into one concept. -/
def childTravNodeL : Concept → List (String × List String) →
    (Option (List String) × List (String × List String))
  | .mk _ _ _ _ (some (c :: cs)), acc =>
    let r := childTravL (c :: cs) acc
    (some r.1, r.2)
  | _, acc => (none, acc)

/-- The `_traverse` of `get_children_map_from_list`. -/
def childTravL : List Concept → List (String × List String) →
    (List String × List (String × List String))
  | [], acc => ([], acc)
  | c :: rest, acc =>
    match childTravNodeL c acc with
    | (some desc, acc1) =>
      let sacc := childTravL rest (dictInsert c.title desc acc1)
      (c.title :: (desc ++ sacc.1), sacc.2)
    | (none, acc1) =>
      let sacc := childTravL rest (dictInsert c.title [] acc1)
      (c.title :: sacc.1, sacc.2)

end

/-- `get_children_map_from_list`: concept title to its flat descendant list. -/
def get_children_map_from_list (concepts : List Concept) : List (String × List String) :=
  (childTravL concepts []).2

/-- `_fix_source_name` from `preprocess_edited_map`: like the build version
but with explicit handling of a missing or emptied heading part (keeps a
bare file id unchanged, drops empty segments before formatting). -/
def fix_source_name_edit (src : String) : String :=
  let p := partitionHash src
  if p.2 = "" then p.1
  else
    let formatted := joinSlash
      (((chSplit '/' p.2.toList).filter (fun g => g ≠ [])).map (fun g => format_header (String.mk g)))
    if formatted = "" then p.1 else p.1 ++ "#" ++ formatted

/-- `_fix_hallucinated_source` from `preprocess_edited_map`: keep an allowed
source, truncate to an allowed file name, otherwise return Python `None`. -/
def fix_hallucinated_source (allowed : List String) (src : String) : Option String :=
  if src ∈ allowed then some src
  else if (partitionHash src).1 ∈ allowed then some (partitionHash src).1
  else none

/-- The `new_sources` computation of `_traverse_and_process`: repair each
citation, keep only the truthy results (`[s for s in processed_src if s]`),
and turn an emptied list into `None`. -/
def procSourcesE (allowed : List String) : Option (List String) → Option (List String)
  | some (s :: ss) =>
    let kept := ((s :: ss).map (fun x => fix_hallucinated_source allowed (fix_source_name_edit x))).filterMap
      (fun o => match o with
        | some t => if t = "" then none else some t
        | none => none)
    if kept = [] then none else some kept
  | _ => none

/-- The `new_related` computation of `_traverse_and_process`: keep only
known, non-self, non-ancestor, non-descendant titles, `None` when emptied. -/
def procRelated (all_titles : List String) (pm cm : List (String × List String))
    (title : String) : Option (List String) → Option (List String)
  | some (r :: rs) =>
    let filtered := (r :: rs).filter (fun t =>
      decide (t ∈ all_titles ∧ t ≠ title ∧ t ∉ dictGet title pm [] ∧ t ∉ dictGet title cm []))
    if filtered = [] then none else some filtered
  | _ => none

mutual

/-- One concept rebuilt by `_traverse_and_process` (`model_copy` keeping
`title` and `description`, updating `source`, `related`, `consist_of`). -/
def procConcept (allowed all_titles : List String) (pm cm : List (String × List String)) :
    Concept → Concept
  | .mk title descr related source children =>
    match children with
    | some (c :: cs) =>
      .mk title descr (procRelated all_titles pm cm title related)
        (procSourcesE allowed source) (some (procList allowed all_titles pm cm (c :: cs)))
    | _ =>
      .mk title descr (procRelated all_titles pm cm title related)
        (procSourcesE allowed source) none

/-- The loop of `_traverse_and_process` over a truthy concept list. -/
def procList (allowed all_titles : List String) (pm cm : List (String × List String)) :
    List Concept → List Concept
  | [] => []
  | c :: rest =>
    procConcept allowed all_titles pm cm c :: procList allowed all_titles pm cm rest

end

/-- `preprocess_edited_map`: compute the title set and the ancestor and
descendant maps from the new tree, then rebuild it with repaired `source`
and `related` fields (an empty input list stays empty:
`final_processed_concepts or []`). -/
def preprocess_edited_map (edited_map : KnowledgeMap) (allowed : List String) : KnowledgeMap :=
  let all_titles := flatten_map edited_map.concepts
  let pm := get_parents_map_from_list edited_map.concepts
  let cm := get_children_map_from_list edited_map.concepts
  match edited_map.concepts with
  | [] => ⟨[]⟩
  | c :: rest => ⟨procList allowed all_titles pm cm (c :: rest)⟩

/-! ### Collectors used only in theorem statements -/

mutual

/-- All concepts below one concept (through truthy children). -/
def conceptsInNode : Concept → List Concept
  | .mk _ _ _ _ (some (c :: cs)) => conceptsIn (c :: cs)
  | _ => []

/-- All concepts of a concept list, recursively. -/
def conceptsIn : List Concept → List Concept
  | [] => []
  | c :: rest => c :: (conceptsInNode c ++ conceptsIn rest)

end

mutual

/-- All citation strings stored in one hierarchy node and below it. -/
def hierSourcesNode : ConceptHierarchyNode → List String
  | .mk (some l) (some (c :: cs)) => l ++ hierSources (c :: cs)
  | .mk (some l) _ => l
  | .mk none (some (c :: cs)) => hierSources (c :: cs)
  | .mk none _ => []

/-- All citation strings stored in a hierarchy. -/
def hierSources : ConceptHierarchy → List String
  | [] => []
  | (_, n) :: rest => hierSourcesNode n ++ hierSources rest

end

/-- The skeleton of a concept retained by `model_copy`: title, description
and the (recursive) child skeletons, a falsy child list counting as no
children. -/
inductive CShape : Type where
  | mk (title : String) (description : Option String) (children : List CShape)

mutual

/-- Skeleton of one concept. -/
def shapeOfConcept : Concept → CShape
  | .mk t d _ _ (some (c :: cs)) => .mk t d (shapesOf (c :: cs))
  | .mk t d _ _ _ => .mk t d []

/-- Skeletons of a concept list. -/
def shapesOf : List Concept → List CShape
  | [] => []
  | c :: rest => shapeOfConcept c :: shapesOf rest

end

/-! ## Rewrite route error surfacing (`app/main.py`)

`roadmap_rewrite` wraps the whole edit operation in one
`try/except Exception` and re-raises any failure as
`HTTPException(status_code=400, detail=f'Не удалось переписать роадмап: {e}')`.
The two failure causes distinguished by the spec are modelled as
`EditFailure`; the caller-visible outcome is the HTTP status code together
with the detail string. -/

inductive EditFailure : Type where
  | malformedInput (message : String)
  | generationFailure (message : String)

def EditFailure.message : EditFailure → String
  | .malformedInput m => m
  | .generationFailure m => m

/-- The response of `roadmap_rewrite`: the knowledge map on success, and on
any failure the single catch-all `HTTPException` with status 400 and the
formatted detail string. -/
def roadmap_rewrite_response (result : Except EditFailure KnowledgeMap) :
    Except (Nat × String) KnowledgeMap :=
  match result with
  | .ok m => .ok m
  | .error e => .error (400, "Не удалось переписать роадмап: " ++ e.message)

/-- Modelled from the spec: the number of *leaf* headings of a heading list,
a heading being a leaf iff it is the last heading in the document or the
next heading's level is `≤` its own level. -/
def specLeafHeadingCount : List (Nat × String) → Nat
  | [] => 0
  | [_] => 1
  | h :: h2 :: rest => (if h2.1 ≤ h.1 then 1 else 0) + specLeafHeadingCount (h2 :: rest)

theorem buildPaths_cons_cons (level : Nat) (text t2 : String) (nl : Nat)
    (rest : List (Nat × String)) (path : List String) :
    buildPaths ((level, text) :: (nl, t2) :: rest) path =
      (if nl ≤ level
       then joinSlash ((path.take (level - 1) ++ [text]).map format_header) ::
         buildPaths ((nl, t2) :: rest) (path.take (level - 1) ++ [text])
       else buildPaths ((nl, t2) :: rest) (path.take (level - 1) ++ [text])) := rfl

theorem buildPaths_length :
    ∀ (hs : List (Nat × String)) (path : List String),
      (buildPaths hs path).length = specLeafHeadingCount hs
  | [], _ => rfl
  | [(_, _)], _ => rfl
  | (level, text) :: (nl, t2) :: rest, path => by
    have ih := buildPaths_length ((nl, t2) :: rest) (path.take (level - 1) ++ [text])
    by_cases hle : nl ≤ level
    · rw [buildPaths_cons_cons, if_pos hle, List.length_cons, ih]
      simp [specLeafHeadingCount, hle]
      omega
    · rw [buildPaths_cons_cons, if_neg hle, ih]
      simp [specLeafHeadingCount, hle]

/-- **C7.** The header-path indexer emits exactly one path per leaf heading
(a heading being a leaf iff it is the last one or the next heading's level
is `≤` its own); on a document with headings `H1` (level 1), `H2` (level 2),
`H3` (level 1) it emits exactly the citation targets `doc#H1/H2` and
`doc#H3`. -/
theorem indexer_one_path_per_leaf :
    (∀ text : String,
      (get_markdown_header_paths text).length = specLeafHeadingCount (headersOf text)) ∧
    get_allowed_sources [("doc", "# H1\n## H2\n# H3")] = ["doc", "doc#H1/H2", "doc#H3"] := by
  constructor
  · intro text
    exact buildPaths_length (headersOf text) []
  · rfl

/-! ## Dict and repair lemmas -/

theorem mem_dictInsert {β : Type} {q : String × β} {k : String} {v : β} :
    ∀ {d : List (String × β)}, q ∈ dictInsert k v d → q = (k, v) ∨ q ∈ d := by
  intro d
  induction d with
  | nil =>
    intro h
    simp only [dictInsert] at h
    left
    simpa using h
  | cons p rest ih =>
    obtain ⟨k', v'⟩ := p
    intro h
    simp only [dictInsert] at h
    by_cases hk : k' = k
    · rw [if_pos hk] at h
      rcases List.mem_cons.mp h with h1 | h2
      · left
        rw [h1, hk]
      · right
        exact List.mem_cons_of_mem _ h2
    · rw [if_neg hk] at h
      rcases List.mem_cons.mp h with h1 | h2
      · right
        rw [h1]
        exact List.mem_cons_self _ _
      · rcases ih h2 with h3 | h4
        · left
          exact h3
        · right
          exact List.mem_cons_of_mem _ h4

theorem mem_foldl_dictInsert {β : Type} {q : String × β} :
    ∀ (l : List (String × β)) (acc : List (String × β)),
      q ∈ l.foldl (fun a p => dictInsert p.1 p.2 a) acc → q ∈ acc ∨ q ∈ l := by
  intro l
  induction l with
  | nil =>
    intro acc h
    left
    exact h
  | cons p rest ih =>
    intro acc h
    simp only [List.foldl_cons] at h
    rcases ih (dictInsert p.1 p.2 acc) h with h1 | h2
    · rcases mem_dictInsert h1 with h3 | h4
      · right
        rw [h3, Prod.mk.eta]
        exact List.mem_cons_self _ _
      · left
        exact h4
    · right
      exact List.mem_cons_of_mem _ h2

theorem mem_dictOfList {β : Type} {q : String × β} {l : List (String × β)}
    (h : q ∈ dictOfList l) : q ∈ l :=
  (mem_foldl_dictInsert l [] h).resolve_left (by simp)

theorem fix_hallucinated_header_mem {allowed : List String} {src t : String}
    (h : fix_hallucinated_header allowed src = some t) : t ∈ allowed := by
  unfold fix_hallucinated_header at h
  by_cases h1 : src ∈ allowed
  · rw [if_pos h1] at h
    cases h
    exact h1
  · rw [if_neg h1] at h
    by_cases h2 : (partitionHash src).1 ∈ allowed
    · rw [if_pos h2] at h
      cases h
      exact h2
    · rw [if_neg h2] at h
      cases h

theorem fix_hallucinated_source_mem {allowed : List String} {src t : String}
    (h : fix_hallucinated_source allowed src = some t) : t ∈ allowed := by
  unfold fix_hallucinated_source at h
  by_cases h1 : src ∈ allowed
  · rw [if_pos h1] at h
    cases h
    exact h1
  · rw [if_neg h1] at h
    by_cases h2 : (partitionHash src).1 ∈ allowed
    · rw [if_pos h2] at h
      cases h
      exact h2
    · rw [if_neg h2] at h
      cases h

/-! ## Lemmas about the edit traversal -/

theorem procConcept_title (allowed all_titles : List String)
    (pm cm : List (String × List String)) (c : Concept) :
    (procConcept allowed all_titles pm cm c).title = c.title := by
  obtain ⟨t, d, r, s, ch⟩ := c
  match ch with
  | some (c :: cs) => rfl
  | some [] => rfl
  | none => rfl

theorem procConcept_description (allowed all_titles : List String)
    (pm cm : List (String × List String)) (c : Concept) :
    (procConcept allowed all_titles pm cm c).description = c.description := by
  obtain ⟨t, d, r, s, ch⟩ := c
  match ch with
  | some (c :: cs) => rfl
  | some [] => rfl
  | none => rfl

theorem procConcept_related (allowed all_titles : List String)
    (pm cm : List (String × List String)) (c : Concept) :
    (procConcept allowed all_titles pm cm c).related
      = procRelated all_titles pm cm c.title c.related := by
  obtain ⟨t, d, r, s, ch⟩ := c
  match ch with
  | some (c :: cs) => rfl
  | some [] => rfl
  | none => rfl

theorem procConcept_source (allowed all_titles : List String)
    (pm cm : List (String × List String)) (c : Concept) :
    (procConcept allowed all_titles pm cm c).source = procSourcesE allowed c.source := by
  obtain ⟨t, d, r, s, ch⟩ := c
  match ch with
  | some (c :: cs) => rfl
  | some [] => rfl
  | none => rfl

theorem procRelated_ne_some_nil (all_titles : List String)
    (pm cm : List (String × List String)) (title : String) (r : Option (List String)) :
    procRelated all_titles pm cm title r ≠ some [] := by
  match r with
  | none => simp [procRelated]
  | some [] => simp [procRelated]
  | some (x :: xs) =>
    simp only [procRelated]
    by_cases hf : (x :: xs).filter (fun t =>
        decide (t ∈ all_titles ∧ t ≠ title ∧ t ∉ dictGet title pm [] ∧ t ∉ dictGet title cm [])) = []
    · rw [if_pos hf]
      simp
    · rw [if_neg hf]
      intro hc
      exact hf (Option.some_inj.mp hc)

theorem procRelated_mem (all_titles : List String) (pm cm : List (String × List String))
    (title : String) (r : Option (List String)) :
    ∀ t ∈ (procRelated all_titles pm cm title r).getD [],
      t ∈ all_titles ∧ t ≠ title ∧ t ∉ dictGet title pm [] ∧ t ∉ dictGet title cm [] := by
  intro t ht
  match r with
  | none => simp [procRelated] at ht
  | some [] => simp [procRelated] at ht
  | some (x :: xs) =>
    simp only [procRelated] at ht
    by_cases hf : (x :: xs).filter (fun t =>
        decide (t ∈ all_titles ∧ t ≠ title ∧ t ∉ dictGet title pm [] ∧ t ∉ dictGet title cm [])) = []
    · rw [if_pos hf] at ht
      simp at ht
    · rw [if_neg hf] at ht
      simp only [Option.getD_some] at ht
      have := List.mem_filter.mp ht
      exact of_decide_eq_true this.2

theorem procSourcesE_mem (allowed : List String) (s : Option (List String)) :
    ∀ x ∈ (procSourcesE allowed s).getD [], x ∈ allowed := by
  intro x hx
  match s with
  | none => simp [procSourcesE] at hx
  | some [] => simp [procSourcesE] at hx
  | some (a :: as) =>
    simp only [procSourcesE] at hx
    by_cases hk : ((a :: as).map (fun y => fix_hallucinated_source allowed (fix_source_name_edit y))).filterMap
        (fun o => match o with
          | some t => if t = "" then none else some t
          | none => none) = []
    · rw [if_pos hk] at hx
      simp at hx
    · rw [if_neg hk] at hx
      simp only [Option.getD_some] at hx
      rcases List.mem_filterMap.mp hx with ⟨o, ho, hox⟩
      match o with
      | none => simp at hox
      | some t =>
        by_cases ht : t = ""
        · rw [ht] at hox
          simp at hox
        · simp only [if_neg ht, Option.some_inj] at hox
          rcases List.mem_map.mp ho with ⟨y, _, hy⟩
          exact hox ▸ fix_hallucinated_source_mem hy

mutual

theorem mem_conceptsIn_procList (A T : List String) (pm cm : List (String × List String)) :
    ∀ (l : List Concept) (c' : Concept), c' ∈ conceptsIn (procList A T pm cm l) →
      ∃ c : Concept, c' = procConcept A T pm cm c
  | [], c', h => absurd h (by simp [procList, conceptsIn])
  | x :: rest, c', h => by
    rw [show conceptsIn (procList A T pm cm (x :: rest))
        = procConcept A T pm cm x ::
          (conceptsInNode (procConcept A T pm cm x) ++ conceptsIn (procList A T pm cm rest))
      from rfl] at h
    rcases List.mem_cons.mp h with h1 | h2
    · exact ⟨x, h1⟩
    · rcases List.mem_append.mp h2 with h3 | h4
      · exact mem_conceptsInNode_procConcept A T pm cm x c' h3
      · exact mem_conceptsIn_procList A T pm cm rest c' h4

theorem mem_conceptsInNode_procConcept (A T : List String) (pm cm : List (String × List String)) :
    ∀ (x : Concept) (c' : Concept), c' ∈ conceptsInNode (procConcept A T pm cm x) →
      ∃ c : Concept, c' = procConcept A T pm cm c
  | .mk t d r s (some (y :: ys)), c', h =>
    mem_conceptsIn_procList A T pm cm (y :: ys) c' h
  | .mk t d r s (some []), c', h => absurd h (by simp [procConcept, conceptsInNode])
  | .mk t d r s none, c', h => absurd h (by simp [procConcept, conceptsInNode])

end

theorem mem_conceptsIn_preprocess_edited_map (km : KnowledgeMap) (allowed : List String)
    (c : Concept) (h : c ∈ conceptsIn (preprocess_edited_map km allowed).concepts) :
    ∃ x : Concept, c = procConcept allowed (flatten_map km.concepts)
      (get_parents_map_from_list km.concepts) (get_children_map_from_list km.concepts) x := by
  obtain ⟨cs⟩ := km
  match cs with
  | [] => exact absurd h (by simp [preprocess_edited_map, conceptsIn])
  | x :: rest =>
    exact mem_conceptsIn_procList allowed (flatten_map (x :: rest))
      (get_parents_map_from_list (x :: rest)) (get_children_map_from_list (x :: rest))
      (x :: rest) c h

/-! ## Claim theorems -/

/-- **C9.** Relation cleaning never removes or validates the keys of the
relation map: the cleaned relation map has exactly the same key list as the
input, so a key naming a concept absent from the hierarchy survives
cleaning; only the value lists are filtered. -/
theorem preprocess_related_preserves_keys :
    ∀ (related : List (String × List String)) (hierarchy : ConceptHierarchy),
      (preprocess_related related hierarchy).map Prod.fst = related.map Prod.fst := by
  intro r h
  simp only [preprocess_related, List.map_map]
  rfl

/-- **C5 counterexample.** An entry whose related list filters to empty is
*not* dropped from the cleaned relation map: with hierarchy `{A: leaf}` and
relation response `{A: [B]}` (B unknown), cleaning keeps the key `A` with a
Python `None` value, so the cleaned map is not empty. -/
theorem empty_relation_entry_kept_cex :
    preprocess_related [("A", ["B"])] [("A", .mk none none)] = [("A", none)] ∧
    preprocess_related [("A", ["B"])] [("A", .mk none none)] ≠ [] := by
  refine ⟨rfl, ?_⟩
  intro hc
  rw [show preprocess_related [("A", ["B"])] [("A", ConceptHierarchyNode.mk none none)]
      = [("A", none)] from rfl] at hc
  exact List.cons_ne_nil _ _ hc

/-- **C5 (amended).** An entry whose related list becomes empty after
filtering has its value replaced by `None` (build pipeline) or its
`related` field set to `None` (edit pipeline); no entry with an *empty
list* value survives cleaning, but in the build pipeline the key itself is
kept. -/
theorem no_empty_relation_lists :
    (∀ (related : List (String × List String)) (hierarchy : ConceptHierarchy)
        (k : String) (v : Option (List String)),
        (k, v) ∈ preprocess_related related hierarchy → v ≠ some []) ∧
    (∀ (km : KnowledgeMap) (allowed : List String) (c : Concept),
        c ∈ conceptsIn (preprocess_edited_map km allowed).concepts →
        c.related ≠ some []) := by
  constructor
  · intro r h k v hm
    simp only [preprocess_related] at hm
    rcases List.mem_map.mp hm with ⟨kv, _, hkv⟩
    have hv : v = (if kv.2.filter (fun concept =>
        decide (concept ∈ flatten_hierarchy h ∧
          concept ∉ dictGet kv.1 (get_parents_map h) [] ∧
          concept ∉ dictGet kv.1 (get_children_map h) [])) = []
      then none
      else some (kv.2.filter (fun concept =>
        decide (concept ∈ flatten_hierarchy h ∧
          concept ∉ dictGet kv.1 (get_parents_map h) [] ∧
          concept ∉ dictGet kv.1 (get_children_map h) [])))) :=
      (congrArg Prod.snd hkv).symm
    by_cases hf : kv.2.filter (fun concept =>
        decide (concept ∈ flatten_hierarchy h ∧
          concept ∉ dictGet kv.1 (get_parents_map h) [] ∧
          concept ∉ dictGet kv.1 (get_children_map h) [])) = []
    · rw [hv, if_pos hf]
      simp
    · rw [hv, if_neg hf]
      intro hc
      exact hf (Option.some_inj.mp hc)
  · intro km allowed c hc
    rcases mem_conceptsIn_preprocess_edited_map km allowed c hc with ⟨x, hx⟩
    rw [hx, procConcept_related]
    exact procRelated_ne_some_nil _ _ _ _ _

/-- **C5 witness.** -/
theorem no_empty_relation_lists_witness :
    (some ["B"] : Option (List String)) ≠ some [] :=
  no_empty_relation_lists.1 [("A", ["B"])] [("A", .mk none none), ("B", .mk none none)]
    "A" (some ["B"])
    (by rw [show preprocess_related [("A", ["B"])]
          [("A", ConceptHierarchyNode.mk none none), ("B", ConceptHierarchyNode.mk none none)]
        = [("A", some ["B"])] from rfl]
        simp)

/-- **C4 (code bug).** A citation whose document-id portion is not in the
allowed-source set: the edit pipeline silently drops it as specified, but
the build pipeline leaves a Python `None` placeholder in the citation list
and the node revalidation then raises a `ValidationError` (modelled by the
`none` result), so the hallucinated citation aborts the build instead of
being silently dropped. -/
theorem hallucinated_file_citation_build_raises :
    preprocess_hierarchy [("A", .mk (some ["unknown.md#X"]) none)] ["doc.md"] = none ∧
    (preprocess_edited_map ⟨[.mk "A" none none (some ["unknown.md#X"]) none]⟩ ["doc.md"]).concepts
      = [.mk "A" none none none none] :=
  ⟨rfl, rfl⟩

/-- **C6 counterexample.** The citation `doc.md#Intro (overview)` checked
against the allowed set computed from a document with heading
`Intro (overview)` (which contains `doc.md#Intro-overview`) is *not*
normalized to the canonical slug and retained: citation repair does not
produce `doc.md#Intro-overview`. -/
theorem citation_slug_mismatch_cex :
    get_allowed_sources [("doc.md", "# Intro (overview)")] = ["doc.md", "doc.md#Intro-overview"] ∧
    fix_hallucinated_header ["doc.md", "doc.md#Intro-overview"]
        (fix_source_name "doc.md#Intro (overview)")
      ≠ some "doc.md#Intro-overview" := by
  refine ⟨rfl, ?_⟩
  rw [show fix_hallucinated_header ["doc.md", "doc.md#Intro-overview"]
      (fix_source_name "doc.md#Intro (overview)") = some "doc.md" from rfl]
  simp

/-- **C6 (amended).** Citation repair removes spaces and parentheses from
heading segments while the indexer hyphenates spaces, so
`doc.md#Intro (overview)` reformats to `doc.md#Introoverview`, which is not
in the allowed set; the citation is therefore truncated to the allowed
document id `doc.md` (not retained as the canonical slug, and not
dropped). -/
theorem citation_space_slug_truncates :
    fix_source_name "doc.md#Intro (overview)" = "doc.md#Introoverview" ∧
    fix_hallucinated_header (get_allowed_sources [("doc.md", "# Intro (overview)")])
      (fix_source_name "doc.md#Intro (overview)") = some "doc.md" :=
  ⟨rfl, rfl⟩

/-- **C8 counterexample.** The rewrite route surfaces a malformed prior map
and a completion-service failure through the same catch-all handler: two
distinct failure causes with the same rendered message produce *identical*
caller-visible outcomes (HTTP 400 with the same detail string). -/
theorem rewrite_failures_indistinguishable_cex :
    roadmap_rewrite_response (.error (.malformedInput "invalid")) =
      roadmap_rewrite_response (.error (.generationFailure "invalid")) ∧
    EditFailure.malformedInput "invalid" ≠ EditFailure.generationFailure "invalid" :=
  ⟨rfl, fun h => EditFailure.noConfusion h⟩

/-- **C8 (amended).** Both failure causes of the rewrite route surface as
the same caller-visible failure shape — HTTP status 400 with the detail
prefix `Не удалось переписать роадмап:` followed by the exception text; the
causes are distinguishable only insofar as the underlying exception
messages differ. -/
theorem rewrite_failure_surface :
    ∀ m : String,
      roadmap_rewrite_response (.error (.malformedInput m))
        = .error (400, "Не удалось переписать роадмап: " ++ m) ∧
      roadmap_rewrite_response (.error (.generationFailure m))
        = .error (400, "Не удалось переписать роадмап: " ++ m) :=
  fun _ => ⟨rfl, rfl⟩

/-- **C1 counterexample.** Build-pipeline relation cleaning does not remove
a self-link: with hierarchy `Networking ⊃ {TCP, UDP}` and relation response
`{TCP: [UDP, Networking, TCP]}`, the cleaned entry is `{TCP: [UDP, TCP]}`,
so `TCP ∈ related(TCP)` survives. -/
theorem relation_cleaning_self_link_survives_cex :
    preprocess_related [("TCP", ["UDP", "Networking", "TCP"])]
        [("Networking", .mk none (some [("TCP", .mk none none), ("UDP", .mk none none)]))]
      = [("TCP", some ["UDP", "TCP"])] ∧
    ("TCP" : String) ∈ ["UDP", "TCP"] :=
  ⟨rfl, by simp⟩

/-- **C1 (amended).** After relation cleaning, every surviving name in an
entry's related list is present in the flattened concept set, not among the
entry's ancestors and not among its descendants; the *edit* pipeline
additionally removes the concept's own name, but the *build* pipeline does
not filter self-references. -/
theorem relation_cleaning_scope :
    (∀ (related : List (String × List String)) (hierarchy : ConceptHierarchy)
        (k : String) (l : List String),
        (k, some l) ∈ preprocess_related related hierarchy →
        ∀ c ∈ l, c ∈ flatten_hierarchy hierarchy ∧
          c ∉ dictGet k (get_parents_map hierarchy) [] ∧
          c ∉ dictGet k (get_children_map hierarchy) []) ∧
    (∀ (km : KnowledgeMap) (allowed : List String) (c : Concept),
        c ∈ conceptsIn (preprocess_edited_map km allowed).concepts →
        ∀ t ∈ c.related.getD [], t ∈ flatten_map km.concepts ∧ t ≠ c.title ∧
          t ∉ dictGet c.title (get_parents_map_from_list km.concepts) [] ∧
          t ∉ dictGet c.title (get_children_map_from_list km.concepts) []) := by
  constructor
  · intro r h k l hm c hc
    simp only [preprocess_related] at hm
    rcases List.mem_map.mp hm with ⟨kv, _, hkv⟩
    have hk : kv.1 = k := congrArg Prod.fst hkv
    have hv : (if kv.2.filter (fun concept =>
        decide (concept ∈ flatten_hierarchy h ∧
          concept ∉ dictGet kv.1 (get_parents_map h) [] ∧
          concept ∉ dictGet kv.1 (get_children_map h) [])) = []
      then none
      else some (kv.2.filter (fun concept =>
        decide (concept ∈ flatten_hierarchy h ∧
          concept ∉ dictGet kv.1 (get_parents_map h) [] ∧
          concept ∉ dictGet kv.1 (get_children_map h) [])))) = some l :=
      congrArg Prod.snd hkv
    by_cases hf : kv.2.filter (fun concept =>
        decide (concept ∈ flatten_hierarchy h ∧
          concept ∉ dictGet kv.1 (get_parents_map h) [] ∧
          concept ∉ dictGet kv.1 (get_children_map h) [])) = []
    · rw [if_pos hf] at hv
      cases hv
    · rw [if_neg hf] at hv
      have hl := Option.some_inj.mp hv
      rw [← hl] at hc
      have := of_decide_eq_true (List.mem_filter.mp hc).2
      rw [hk] at this
      exact this
  · intro km allowed c hc t ht
    rcases mem_conceptsIn_preprocess_edited_map km allowed c hc with ⟨x, hx⟩
    rw [hx, procConcept_related] at ht
    have := procRelated_mem (flatten_map km.concepts)
      (get_parents_map_from_list km.concepts) (get_children_map_from_list km.concepts)
      x.title x.related t ht
    rw [hx, procConcept_title]
    exact this

/-- **C1 witness.** -/
theorem relation_cleaning_scope_witness :
    ("UDP" : String) ∈ flatten_hierarchy
        [("Networking", .mk none (some [("TCP", .mk none none), ("UDP", .mk none none)]))] ∧
    ("UDP" : String) ∉ dictGet "TCP" (get_parents_map
        [("Networking", .mk none (some [("TCP", .mk none none), ("UDP", .mk none none)]))]) [] ∧
    ("UDP" : String) ∉ dictGet "TCP" (get_children_map
        [("Networking", .mk none (some [("TCP", .mk none none), ("UDP", .mk none none)]))]) [] :=
  relation_cleaning_scope.1 [("TCP", ["UDP"])]
    [("Networking", .mk none (some [("TCP", .mk none none), ("UDP", .mk none none)]))]
    "TCP" ["UDP"]
    (by rw [show preprocess_related [("TCP", ["UDP"])]
          [("Networking", ConceptHierarchyNode.mk none
            (some [("TCP", ConceptHierarchyNode.mk none none),
              ("UDP", ConceptHierarchyNode.mk none none)]))]
        = [("TCP", some ["UDP"])] from rfl]
        simp)
    "UDP" (by simp)

/-! ## Citation validity lemmas (build side) -/

theorem seqOption_mem {α : Type} :
    ∀ {xs : List (Option α)} {ys : List α}, seqOption xs = some ys →
      ∀ y ∈ ys, some y ∈ xs := by
  intro xs
  induction xs with
  | nil =>
    intro ys h y hy
    simp only [seqOption] at h
    cases h
    simp at hy
  | cons o rest ih =>
    intro ys h y hy
    match o with
    | none => simp [seqOption] at h
    | some a =>
      simp only [seqOption] at h
      cases hR : seqOption rest with
      | none => rw [hR] at h; cases h
      | some r =>
        rw [hR] at h
        cases h
        rcases List.mem_cons.mp hy with h1 | h2
        · rw [h1]
          exact List.mem_cons_self _ _
        · exact List.mem_cons_of_mem _ (ih hR y h2)

theorem procSourcesB_allowed {allowed : List String} {src : Option (List String)}
    {newS : Option (List String)} (h : procSourcesB allowed src = some newS) :
    ∀ x ∈ newS.getD [], x ∈ allowed := by
  intro x hx
  match src with
  | none =>
    simp only [procSourcesB] at h
    cases h
    simp at hx
  | some [] =>
    simp only [procSourcesB] at h
    cases h
    simp at hx
  | some (a :: as) =>
    simp only [procSourcesB] at h
    cases hS : seqOption ((a :: as).map (fun y => fix_hallucinated_header allowed (fix_source_name y))) with
    | none => rw [hS] at h; cases h
    | some l =>
      rw [hS] at h
      cases h
      simp only [Option.getD_some] at hx
      have := seqOption_mem hS x hx
      rcases List.mem_map.mp this with ⟨y, _, hy⟩
      exact fix_hallucinated_header_mem hy

theorem mem_hierSources_exists :
    ∀ (h : ConceptHierarchy) (s : String), s ∈ hierSources h →
      ∃ p ∈ h, s ∈ hierSourcesNode p.2 := by
  intro h
  induction h with
  | nil =>
    intro s hs
    simp [hierSources] at hs
  | cons p rest ih =>
    intro s hs
    obtain ⟨k, n⟩ := p
    rw [show hierSources ((k, n) :: rest) = hierSourcesNode n ++ hierSources rest from rfl] at hs
    rcases List.mem_append.mp hs with h1 | h2
    · exact ⟨(k, n), List.mem_cons_self _ _, h1⟩
    · rcases ih s h2 with ⟨q, hq, hqs⟩
      exact ⟨q, List.mem_cons_of_mem _ hq, hqs⟩

theorem mem_hierSources_of_pair :
    ∀ (h : ConceptHierarchy) (p : String × ConceptHierarchyNode), p ∈ h →
      ∀ s ∈ hierSourcesNode p.2, s ∈ hierSources h := by
  intro h
  induction h with
  | nil =>
    intro p hp
    simp at hp
  | cons q rest ih =>
    intro p hp s hs
    obtain ⟨k, n⟩ := q
    rw [show hierSources ((k, n) :: rest) = hierSourcesNode n ++ hierSources rest from rfl]
    rcases List.mem_cons.mp hp with h1 | h2
    · refine List.mem_append.mpr (Or.inl ?_)
      rw [h1] at hs
      exact hs
    · exact List.mem_append.mpr (Or.inr (ih p h2 s hs))

theorem hierSources_dictOfList_sub {l : ConceptHierarchy} {s : String}
    (h : s ∈ hierSources (dictOfList l)) : s ∈ hierSources l := by
  rcases mem_hierSources_exists _ s h with ⟨p, hp, hps⟩
  exact mem_hierSources_of_pair l p (mem_dictOfList hp) s hps

theorem hierSourcesNode_mk_some (sl : Option (List String)) (l : ConceptHierarchy) :
    hierSourcesNode (ConceptHierarchyNode.mk sl (some l))
      = sl.getD [] ++ hierSources l := by
  match sl, l with
  | some s, [] => exact (List.append_nil s).symm
  | some s, q :: qs => rfl
  | none, [] => rfl
  | none, q :: qs => rfl

theorem hierSourcesNode_mk_none (sl : Option (List String)) :
    hierSourcesNode (ConceptHierarchyNode.mk sl none) = sl.getD [] := by
  match sl with
  | some s => rfl
  | none => rfl

mutual

theorem prepNode_sources_allowed (allowed : List String) :
    ∀ (n n' : ConceptHierarchyNode), prepNode allowed n = some n' →
      ∀ s ∈ hierSourcesNode n', s ∈ allowed
  | .mk sources (some (c :: cs)), n', h => by
    simp only [prepNode] at h
    cases hS : procSourcesB allowed sources with
    | none => rw [hS] at h; cases h
    | some newS =>
      rw [hS] at h
      intro s hs
      simp only at h
      cases hP : prepPairs allowed (c :: cs) with
      | none => rw [hP] at h; cases h
      | some l =>
        rw [hP] at h
        simp only [Option.some_inj] at h
        rw [← h, hierSourcesNode_mk_some] at hs
        rcases List.mem_append.mp hs with h1 | h2
        · exact procSourcesB_allowed hS s h1
        · exact prepPairs_sources_allowed allowed (c :: cs) l hP s
            (hierSources_dictOfList_sub h2)
  | .mk sources (some []), n', h => by
    simp only [prepNode] at h
    cases hS : procSourcesB allowed sources with
    | none => rw [hS] at h; cases h
    | some newS =>
      rw [hS] at h
      intro s hs
      simp only [Option.some_inj] at h
      rw [← h, hierSourcesNode_mk_none] at hs
      exact procSourcesB_allowed hS s hs
  | .mk sources none, n', h => by
    simp only [prepNode] at h
    cases hS : procSourcesB allowed sources with
    | none => rw [hS] at h; cases h
    | some newS =>
      rw [hS] at h
      intro s hs
      simp only [Option.some_inj] at h
      rw [← h, hierSourcesNode_mk_none] at hs
      exact procSourcesB_allowed hS s hs

theorem prepPairs_sources_allowed (allowed : List String) :
    ∀ (l l' : List (String × ConceptHierarchyNode)), prepPairs allowed l = some l' →
      ∀ s ∈ hierSources l', s ∈ allowed
  | [], l', h => by
    simp only [prepPairs] at h
    cases h
    intro s hs
    rw [show hierSources [] = [] from rfl] at hs
    exact absurd hs (List.not_mem_nil s)
  | (name, node) :: rest, l', h => by
    simp only [prepPairs] at h
    cases hN : prepNode allowed node with
    | none => rw [hN] at h; cases h
    | some n =>
      rw [hN] at h
      cases hR : prepPairs allowed rest with
      | none => rw [hR] at h; cases h
      | some r =>
        rw [hR] at h
        simp only [Option.some_inj] at h
        intro s hs
        rw [← h] at hs
        rw [show hierSources ((stripLeadUnderscore name, n) :: r)
            = hierSourcesNode n ++ hierSources r from rfl] at hs
        rcases List.mem_append.mp hs with h1 | h2
        · exact prepNode_sources_allowed allowed node n hN s h1
        · exact prepPairs_sources_allowed allowed rest r hR s h2

end

/-- **C2.** Every citation attached to any concept of a final map actually
produced by the build or edit pipeline is a member of the citation-target
set computed from the input documents (build normalization aborts instead
of producing an out-of-set citation; edit normalization filters them
out). -/
theorem citation_validity :
    (∀ (material : List (String × String)) (hierarchy h' : ConceptHierarchy),
        preprocess_hierarchy hierarchy (get_allowed_sources material) = some h' →
        ∀ s ∈ hierSources h', s ∈ get_allowed_sources material) ∧
    (∀ (material : List (String × String)) (km : KnowledgeMap) (c : Concept),
        c ∈ conceptsIn (preprocess_edited_map km (get_allowed_sources material)).concepts →
        ∀ s ∈ c.source.getD [], s ∈ get_allowed_sources material) := by
  constructor
  · intro material hierarchy h' h s hs
    simp only [preprocess_hierarchy] at h
    cases hP : prepPairs (get_allowed_sources material) hierarchy with
    | none => rw [hP] at h; cases h
    | some l' =>
      rw [hP] at h
      have h2 : dictOfList l' = h' := Option.some_inj.mp h
      rw [← h2] at hs
      exact prepPairs_sources_allowed _ hierarchy l' hP s (hierSources_dictOfList_sub hs)
  · intro material km c hc s hs
    rcases mem_conceptsIn_preprocess_edited_map km (get_allowed_sources material) c hc with ⟨x, hx⟩
    rw [hx, procConcept_source] at hs
    exact procSourcesE_mem _ _ s hs

/-- **C2 witness.** -/
theorem citation_validity_witness :
    ("doc.md" : String) ∈ get_allowed_sources [("doc.md", "# Intro")] :=
  citation_validity.1 [("doc.md", "# Intro")]
    [("A", .mk (some ["doc.md"]) none)] [("A", .mk (some ["doc.md"]) none)]
    rfl "doc.md"
    (by rw [show hierSources [("A", ConceptHierarchyNode.mk (some ["doc.md"]) none)]
        = ["doc.md"] from rfl]
        simp)

/-! ## Shape preservation (edit side) -/

mutual

theorem shapeOf_procConcept (A T : List String) (pm cm : List (String × List String)) :
    ∀ c : Concept, shapeOfConcept (procConcept A T pm cm c) = shapeOfConcept c
  | .mk t d r s (some (y :: ys)) => by
    rw [show shapeOfConcept (procConcept A T pm cm (.mk t d r s (some (y :: ys))))
        = CShape.mk t d (shapesOf (procList A T pm cm (y :: ys))) from rfl]
    rw [show shapeOfConcept (Concept.mk t d r s (some (y :: ys)))
        = CShape.mk t d (shapesOf (y :: ys)) from rfl]
    rw [shapesOf_procList A T pm cm (y :: ys)]
  | .mk t d r s (some []) => rfl
  | .mk t d r s none => rfl

theorem shapesOf_procList (A T : List String) (pm cm : List (String × List String)) :
    ∀ l : List Concept, shapesOf (procList A T pm cm l) = shapesOf l
  | [] => rfl
  | c :: rest => by
    rw [show shapesOf (procList A T pm cm (c :: rest))
        = shapeOfConcept (procConcept A T pm cm c) :: shapesOf (procList A T pm cm rest)
      from rfl]
    rw [shapeOf_procConcept A T pm cm c, shapesOf_procList A T pm cm rest]
    rfl

end

/-- **C10.** Edit-map normalization preserves, for each concept in the
tree, its title (including any leading underscore), its description, and
the number and order of its children (a falsy child list counting as no
children); only `source` and `related` are rewritten. -/
theorem edit_normalization_preserves_shape :
    ∀ (km : KnowledgeMap) (allowed : List String),
      shapesOf (preprocess_edited_map km allowed).concepts = shapesOf km.concepts := by
  intro km allowed
  obtain ⟨cs⟩ := km
  match cs with
  | [] => rfl
  | x :: rest =>
    exact shapesOf_procList allowed (flatten_map (x :: rest))
      (get_parents_map_from_list (x :: rest)) (get_children_map_from_list (x :: rest))
      (x :: rest)

/-! ## Idempotence lemmas -/

theorem dictInsert_fresh {β : Type} (k : String) (v : β) :
    ∀ acc : List (String × β), k ∉ acc.map Prod.fst → dictInsert k v acc = acc ++ [(k, v)] := by
  intro acc
  induction acc with
  | nil => intro _; rfl
  | cons p rest ih =>
    intro hk
    obtain ⟨k', v'⟩ := p
    simp only [List.map_cons, List.mem_cons] at hk
    push_neg at hk
    obtain ⟨hk1, hk2⟩ := hk
    have hne : ¬(k' = k) := fun he => hk1 (Eq.symm he)
    simp only [dictInsert, if_neg hne]
    rw [ih hk2]
    rfl

theorem keys_dictInsert {β : Type} (k : String) (v : β) :
    ∀ acc : List (String × β),
      (dictInsert k v acc).map Prod.fst
        = if k ∈ acc.map Prod.fst then acc.map Prod.fst else acc.map Prod.fst ++ [k] := by
  intro acc
  induction acc with
  | nil => simp [dictInsert]
  | cons p rest ih =>
    obtain ⟨k', v'⟩ := p
    by_cases hk : k' = k
    · simp only [dictInsert, if_pos hk, List.map_cons]
      rw [if_pos (List.mem_cons.mpr (Or.inl hk.symm))]
    · simp only [dictInsert, if_neg hk, List.map_cons, ih]
      by_cases hm : k ∈ rest.map Prod.fst
      · rw [if_pos hm, if_pos (List.mem_cons_of_mem _ hm)]
      · have hne2 : k ∉ k' :: rest.map Prod.fst := by
          intro hc
          rcases List.mem_cons.mp hc with h1 | h2
          · exact hk h1.symm
          · exact hm h2
        rw [if_neg hm, if_neg hne2]
        rfl

theorem nodup_keys_foldl {β : Type} :
    ∀ (l acc : List (String × β)), (acc.map Prod.fst).Nodup →
      ((l.foldl (fun a p => dictInsert p.1 p.2 a) acc).map Prod.fst).Nodup := by
  intro l
  induction l with
  | nil => intro acc h; exact h
  | cons p rest ih =>
    intro acc h
    simp only [List.foldl_cons]
    refine ih (dictInsert p.1 p.2 acc) ?_
    rw [keys_dictInsert]
    by_cases hm : p.1 ∈ acc.map Prod.fst
    · rw [if_pos hm]
      exact h
    · rw [if_neg hm]
      rw [List.nodup_append]
      refine ⟨h, List.nodup_singleton _, ?_⟩
      intro a ha hb
      rw [List.mem_singleton] at hb
      exact hm (hb ▸ ha)

theorem dictOfList_nodup_keys {β : Type} (l : List (String × β)) :
    ((dictOfList l).map Prod.fst).Nodup :=
  nodup_keys_foldl l [] (by simp)

theorem foldl_dictInsert_eq_append {β : Type} :
    ∀ (m acc : List (String × β)), ((acc ++ m).map Prod.fst).Nodup →
      m.foldl (fun a p => dictInsert p.1 p.2 a) acc = acc ++ m := by
  intro m
  induction m with
  | nil =>
    intro acc _
    simp
  | cons p rest ih =>
    intro acc h
    obtain ⟨k, v⟩ := p
    have hk : k ∉ acc.map Prod.fst := by
      rw [List.map_append, List.nodup_append] at h
      intro hc
      exact h.2.2 hc (by simp)
    simp only [List.foldl_cons]
    rw [dictInsert_fresh k v acc hk, ih (acc ++ [(k, v)]) (by simpa using h)]
    simp

theorem dictOfList_eq_self {β : Type} {m : List (String × β)}
    (h : (m.map Prod.fst).Nodup) : dictOfList m = m :=
  foldl_dictInsert_eq_append m [] (by simpa using h)

theorem dictOfList_idem {β : Type} (l : List (String × β)) :
    dictOfList (dictOfList l) = dictOfList l :=
  dictOfList_eq_self (dictOfList_nodup_keys l)

theorem dictInsert_ne_nil {β : Type} (k : String) (v : β) :
    ∀ d : List (String × β), dictInsert k v d ≠ []
  | [] => by simp [dictInsert]
  | (k', v') :: rest => by
    simp only [dictInsert]
    by_cases hk : k' = k
    · rw [if_pos hk]
      simp
    · rw [if_neg hk]
      simp

theorem foldl_dictInsert_ne_nil {β : Type} :
    ∀ (l acc : List (String × β)), acc ≠ [] →
      l.foldl (fun a p => dictInsert p.1 p.2 a) acc ≠ [] := by
  intro l
  induction l with
  | nil => intro acc h; exact h
  | cons p rest ih =>
    intro acc h
    simp only [List.foldl_cons]
    exact ih (dictInsert p.1 p.2 acc) (dictInsert_ne_nil _ _ _)

theorem dictOfList_ne_nil {β : Type} (p : String × β) (ps : List (String × β)) :
    dictOfList (p :: ps) ≠ [] := by
  simp only [dictOfList, List.foldl_cons]
  exact foldl_dictInsert_ne_nil ps (dictInsert p.1 p.2 []) (dictInsert_ne_nil _ _ _)

theorem seqOption_of_all_some {α : Type} (f : α → Option α) :
    ∀ xs : List α, (∀ x ∈ xs, f x = some x) → seqOption (xs.map f) = some xs := by
  intro xs
  induction xs with
  | nil => intro _; rfl
  | cons a rest ih =>
    intro h
    simp only [List.map_cons]
    rw [show f a = some a from h a (List.mem_cons_self _ _)]
    simp only [seqOption]
    rw [ih (fun x hx => h x (List.mem_cons_of_mem _ hx))]

theorem seqOption_length {α : Type} :
    ∀ {xs : List (Option α)} {ys : List α}, seqOption xs = some ys → ys.length = xs.length := by
  intro xs
  induction xs with
  | nil =>
    intro ys h
    cases h
    rfl
  | cons o rest ih =>
    intro ys h
    match o with
    | none => simp [seqOption] at h
    | some a =>
      simp only [seqOption] at h
      cases hR : seqOption rest with
      | none => rw [hR] at h; cases h
      | some r =>
        rw [hR] at h
        cases h
        simp [ih hR]

theorem procSourcesB_fix {allowed : List String} {src newS : Option (List String)}
    (H2 : ∀ s ∈ allowed, fix_hallucinated_header allowed (fix_source_name s) = some s)
    (h : procSourcesB allowed src = some newS) :
    procSourcesB allowed newS = some newS := by
  match src with
  | none =>
    simp only [procSourcesB] at h
    cases h
    rfl
  | some [] =>
    simp only [procSourcesB] at h
    cases h
    rfl
  | some (a :: as) =>
    simp only [procSourcesB] at h
    cases hS : seqOption ((a :: as).map (fun y => fix_hallucinated_header allowed (fix_source_name y))) with
    | none => rw [hS] at h; cases h
    | some L =>
      rw [hS] at h
      cases h
      have hall : ∀ x ∈ L, x ∈ allowed := by
        intro x hx
        refine @procSourcesB_allowed allowed (some (a :: as)) (some L) ?_ x (by simpa using hx)
        simp only [procSourcesB, hS]
      have hlen : L.length = (a :: as).length := by
        have := seqOption_length hS
        simpa using this
      match L, hlen with
      | b :: bs, _ =>
        simp only [procSourcesB]
        rw [seqOption_of_all_some _ (b :: bs) (fun x hx => H2 x (hall x hx))]

theorem prepPairs_of_elementwise (allowed : List String) :
    ∀ m : List (String × ConceptHierarchyNode),
      (∀ p ∈ m, prepNode allowed p.2 = some p.2 ∧ stripLeadUnderscore p.1 = p.1) →
      prepPairs allowed m = some m := by
  intro m
  induction m with
  | nil => intro _; rfl
  | cons p rest ih =>
    intro h
    obtain ⟨k, n⟩ := p
    have h1 := h (k, n) (List.mem_cons_self _ _)
    have h2 := ih (fun q hq => h q (List.mem_cons_of_mem _ hq))
    simp only [prepPairs]
    rw [show prepNode allowed n = some n from h1.1, h2]
    simp only [Option.some_inj]
    rw [show stripLeadUnderscore k = k from h1.2]

theorem prepPairs_cons_shape (allowed : List String) (a : String × ConceptHierarchyNode)
    (rest l' : List (String × ConceptHierarchyNode))
    (h : prepPairs allowed (a :: rest) = some l') : l' ≠ [] := by
  obtain ⟨name, node⟩ := a
  simp only [prepPairs] at h
  cases hN : prepNode allowed node with
  | none => rw [hN] at h; cases h
  | some n =>
    rw [hN] at h
    cases hR : prepPairs allowed rest with
    | none => rw [hR] at h; cases h
    | some r =>
      rw [hR] at h
      have := Option.some_inj.mp h
      rw [← this]
      simp

mutual

theorem prepNode_fix (allowed : List String)
    (H2 : ∀ s ∈ allowed, fix_hallucinated_header allowed (fix_source_name s) = some s) :
    ∀ (n n' : ConceptHierarchyNode), prepNode allowed n = some n' →
      (∀ x ∈ flattenNode n, stripLeadUnderscore (stripLeadUnderscore x) = stripLeadUnderscore x) →
      prepNode allowed n' = some n'
  | .mk sources (some (c :: cs)), n', h, hnames => by
    simp only [prepNode] at h
    cases hS : procSourcesB allowed sources with
    | none => rw [hS] at h; cases h
    | some newS =>
      rw [hS] at h
      simp only at h
      cases hP : prepPairs allowed (c :: cs) with
      | none => rw [hP] at h; cases h
      | some l2 =>
        rw [hP] at h
        have hn' : ConceptHierarchyNode.mk newS (some (dictOfList l2)) = n' :=
          Option.some_inj.mp h
        have helem : ∀ p ∈ l2, prepNode allowed p.2 = some p.2 ∧
            stripLeadUnderscore p.1 = p.1 :=
          prepPairs_fix allowed H2 (c :: cs) l2 hP hnames
        obtain ⟨q, qs, hl2⟩ : ∃ q qs, l2 = q :: qs := by
          match l2, hP with
          | [], hP => exact absurd rfl (prepPairs_cons_shape allowed c cs [] hP)
          | q :: qs, _ => exact ⟨q, qs, rfl⟩
        obtain ⟨d, ds, hD⟩ : ∃ d ds, dictOfList l2 = d :: ds := by
          rw [hl2]
          match hDD : dictOfList (q :: qs) with
          | [] => exact absurd hDD (dictOfList_ne_nil q qs)
          | d :: ds => exact ⟨d, ds, rfl⟩
        have hdd : dictOfList (d :: ds) = d :: ds := by
          rw [← hD, dictOfList_idem]
        rw [← hn', hD]
        simp only [prepNode]
        rw [procSourcesB_fix H2 hS]
        rw [prepPairs_of_elementwise allowed (d :: ds)
          (fun p hp => helem p (mem_dictOfList (hD ▸ hp)))]
        show some (ConceptHierarchyNode.mk newS (some (dictOfList (d :: ds))))
          = some (ConceptHierarchyNode.mk newS (some (d :: ds)))
        rw [hdd]
  | .mk sources (some []), n', h, _ => by
    simp only [prepNode] at h
    cases hS : procSourcesB allowed sources with
    | none => rw [hS] at h; cases h
    | some newS =>
      rw [hS] at h
      have hn' : ConceptHierarchyNode.mk newS none = n' := Option.some_inj.mp h
      rw [← hn']
      simp only [prepNode]
      rw [procSourcesB_fix H2 hS]
  | .mk sources none, n', h, _ => by
    simp only [prepNode] at h
    cases hS : procSourcesB allowed sources with
    | none => rw [hS] at h; cases h
    | some newS =>
      rw [hS] at h
      have hn' : ConceptHierarchyNode.mk newS none = n' := Option.some_inj.mp h
      rw [← hn']
      simp only [prepNode]
      rw [procSourcesB_fix H2 hS]

theorem prepPairs_fix (allowed : List String)
    (H2 : ∀ s ∈ allowed, fix_hallucinated_header allowed (fix_source_name s) = some s) :
    ∀ (l l2 : List (String × ConceptHierarchyNode)), prepPairs allowed l = some l2 →
      (∀ x ∈ flatten_hierarchy l, stripLeadUnderscore (stripLeadUnderscore x) = stripLeadUnderscore x) →
      ∀ p ∈ l2, prepNode allowed p.2 = some p.2 ∧ stripLeadUnderscore p.1 = p.1
  | [], l2, h, _, p, hp => by
    simp only [prepPairs] at h
    cases h
    simp at hp
  | (name, node) :: rest, l2, h, hnames, p, hp => by
    simp only [prepPairs] at h
    cases hN : prepNode allowed node with
    | none => rw [hN] at h; cases h
    | some n =>
      rw [hN] at h
      cases hR : prepPairs allowed rest with
      | none => rw [hR] at h; cases h
      | some r =>
        rw [hR] at h
        have hl2 : (stripLeadUnderscore name, n) :: r = l2 := Option.some_inj.mp h
        rw [← hl2] at hp
        have hflat : flatten_hierarchy ((name, node) :: rest)
            = name :: (flattenNode node ++ flatten_hierarchy rest) := rfl
        rcases List.mem_cons.mp hp with h1 | h2
        · rw [h1]
          constructor
          · exact prepNode_fix allowed H2 node n hN
              (fun x hx => hnames x (by
                rw [hflat]
                exact List.mem_cons_of_mem _ (List.mem_append_left _ hx)))
          · have hname := hnames name (by
              rw [hflat]
              exact List.mem_cons_self _ _)
            exact hname
        · exact prepPairs_fix allowed H2 rest r hR
            (fun x hx => hnames x (by
              rw [hflat]
              exact List.mem_cons_of_mem _ (List.mem_append_right _ hx))) p h2

end

/-- **C3 counterexample.** Hierarchy normalization is not idempotent: name
repair strips only one leading underscore per application, so normalizing
`{"__A": leaf}` yields `{"_A": leaf}`, and normalizing that output again
yields `{"A": leaf}`, a different result. -/
theorem normalization_not_idempotent_cex :
    preprocess_hierarchy [("__A", .mk none none)] [] = some [("_A", .mk none none)] ∧
    preprocess_hierarchy [("_A", .mk none none)] [] = some [("A", .mk none none)] ∧
    (some [("A", ConceptHierarchyNode.mk none none)] : Option ConceptHierarchy)
      ≠ some [("_A", ConceptHierarchyNode.mk none none)] := by
  refine ⟨rfl, rfl, ?_⟩
  intro hc
  have h1 := Option.some_inj.mp hc
  have h2 : ("A" : String) = "_A" :=
    congrArg (fun l => (l.headD ("", ConceptHierarchyNode.mk none none)).1) h1
  exact absurd h2 (by decide)

/-- **C3 (amended).** Hierarchy normalization is idempotent on hierarchies
whose concept names do not carry a doubled leading underscore, provided
every allowed source is stable under citation repair (which holds for the
canonical targets produced by the indexer from ordinary document ids);
relation cleaning leaves already-filtered non-empty lists unchanged, though
an entry emptied to `None` cannot be fed through cleaning again at all. -/
theorem normalization_idempotent_amended :
    (∀ (hierarchy h' : ConceptHierarchy) (allowed : List String),
        (∀ name ∈ flatten_hierarchy hierarchy,
          stripLeadUnderscore (stripLeadUnderscore name) = stripLeadUnderscore name) →
        (∀ s ∈ allowed, fix_hallucinated_header allowed (fix_source_name s) = some s) →
        preprocess_hierarchy hierarchy allowed = some h' →
        preprocess_hierarchy h' allowed = some h') ∧
    (∀ (related : List (String × List String)) (hierarchy : ConceptHierarchy)
        (k : String) (l : List String),
        (k, some l) ∈ preprocess_related related hierarchy →
        l.filter (fun concept =>
          decide (concept ∈ flatten_hierarchy hierarchy ∧
            concept ∉ dictGet k (get_parents_map hierarchy) [] ∧
            concept ∉ dictGet k (get_children_map hierarchy) [])) = l) := by
  constructor
  · intro hierarchy h' allowed H1 H2 hp
    simp only [preprocess_hierarchy] at hp ⊢
    cases hP : prepPairs allowed hierarchy with
    | none => rw [hP] at hp; cases hp
    | some l' =>
      rw [hP] at hp
      have hh' : dictOfList l' = h' := Option.some_inj.mp hp
      have helem := prepPairs_fix allowed H2 hierarchy l' hP H1
      rw [← hh']
      rw [prepPairs_of_elementwise allowed (dictOfList l')
        (fun p hp2 => helem p (mem_dictOfList hp2))]
      show some (dictOfList (dictOfList l')) = some (dictOfList l')
      rw [dictOfList_idem]
  · intro related hierarchy k l hm
    simp only [preprocess_related] at hm
    rcases List.mem_map.mp hm with ⟨kv, _, hkv⟩
    have hk : kv.1 = k := congrArg Prod.fst hkv
    have hv : (if kv.2.filter (fun concept =>
        decide (concept ∈ flatten_hierarchy hierarchy ∧
          concept ∉ dictGet kv.1 (get_parents_map hierarchy) [] ∧
          concept ∉ dictGet kv.1 (get_children_map hierarchy) [])) = []
      then none
      else some (kv.2.filter (fun concept =>
        decide (concept ∈ flatten_hierarchy hierarchy ∧
          concept ∉ dictGet kv.1 (get_parents_map hierarchy) [] ∧
          concept ∉ dictGet kv.1 (get_children_map hierarchy) [])))) = some l :=
      congrArg Prod.snd hkv
    by_cases hf : kv.2.filter (fun concept =>
        decide (concept ∈ flatten_hierarchy hierarchy ∧
          concept ∉ dictGet kv.1 (get_parents_map hierarchy) [] ∧
          concept ∉ dictGet kv.1 (get_children_map hierarchy) [])) = []
    · rw [if_pos hf] at hv
      cases hv
    · rw [if_neg hf] at hv
      have hl := Option.some_inj.mp hv
      rw [← hk]
      refine List.filter_eq_self.mpr ?_
      intro a ha
      rw [← hl] at ha
      exact (List.mem_filter.mp ha).2

/-- **C3 witness.** -/
theorem normalization_idempotent_amended_witness :
    preprocess_hierarchy [("A", .mk (some ["doc.md"]) none)] ["doc.md", "doc.md#Intro"]
      = some [("A", .mk (some ["doc.md"]) none)] :=
  normalization_idempotent_amended.1
    [("A", .mk (some ["doc.md"]) none)] [("A", .mk (some ["doc.md"]) none)]
    ["doc.md", "doc.md#Intro"] (by decide) (by decide) rfl

end Roadmap
